import Mathlib

/-!
Verification of the natural-language specification of the SWIFT cell-grid
partial-read layer (swift_cells.py) against a shallow embedding of its code.

The embedding translates the source faithfully:
* `Cell` mirrors `swift_cell_t` (centre, count, offset, file, order); the
  float64 centre coordinates are modelled as exact rationals, the int32/int64
  fields as `Int` (no value in the algorithms can approach the 2^31 / 2^63
  bounds, all counts being bounded by per-file particle counts).
* `DatasetCache.open_dataset` is modelled as a state transformer that also
  emits the list of handle events (file opens, dataset resolutions, closes)
  the Python code performs, so that claims about open/close behaviour are
  visible in the model.
* numpy operations are translated by their documented semantics: boolean-mask
  fancy indexing returns a fresh copy of the selected entries in row-major
  order; `np.lexsort((offset, file))` is the stable sort by (file, offset),
  i.e. the index list sorted by the strict total order (file, offset,
  original index); `np.unique` returns the sorted deduplicated values; the
  in-place merge loop of `prepare_read` is the index-driven fold `mergeCells`.
* Python `dict` indexing that can raise `KeyError` is modelled with `Option`
  (`none` = the exception).
-/

/-- Mirror of the numpy structured dtype `swift_cell_t`. -/
structure Cell where
  centre : ℚ × ℚ × ℚ
  count : Int
  offset : Int
  file : Int
  order : Int
deriving DecidableEq

instance : Inhabited Cell := ⟨⟨(0, 0, 0), 0, 0, 0, 0⟩⟩

/-- The comparison key used by both `np.lexsort((offset, file))` calls:
file number first, then offset within the file (both ascending). -/
def cellLe (c d : Cell) : Prop :=
  c.file < d.file ∨ (c.file = d.file ∧ c.offset ≤ d.offset)

instance : DecidableRel cellLe := fun c d => by
  unfold cellLe; infer_instance

/-! ### DatasetCache (`DatasetCache.open_dataset` / `close`) -/

/-- Handle operations performed against the HDF5 library. -/
inductive CacheEvent where
  | openFile (name : String)
  | closeFile (name : String)
  | resolveDataset (file dset : String)
deriving DecidableEq

/-- The cached keys of `DatasetCache` (`self.file_name`, `self.dataset_name`);
`None` in Python is `none` here. The `infile`/`dataset` handle attributes are
determined by these keys, so they are not duplicated in the state. -/
structure DatasetCache where
  file_name : Option String
  dataset_name : Option String
deriving DecidableEq

def initCache : DatasetCache := ⟨none, none⟩

/-- `DatasetCache.open_dataset`: if the requested file differs from the cached
one, open the new file (the code performs no close of the old handle) and
reset the cached dataset name; if the requested dataset then differs from the
cached one, resolve the dataset handle. Returns the new state and the list of
handle events performed, in order. -/
def open_dataset (c : DatasetCache) (file dset : String) :
    DatasetCache × List CacheEvent :=
  let p1 : DatasetCache × List CacheEvent :=
    if some file ≠ c.file_name then
      (⟨some file, none⟩, [CacheEvent.openFile file])
    else (c, [])
  let p2 : DatasetCache × List CacheEvent :=
    if some dset ≠ p1.1.dataset_name then
      ({ p1.1 with dataset_name := some dset }, [CacheEvent.resolveDataset file dset])
    else (p1.1, [])
  (p2.1, p1.2 ++ p2.2)

/-- `DatasetCache.close`: drop both handles (closing the file if one is open)
and reset the cached keys. -/
def closeCache (c : DatasetCache) : DatasetCache × List CacheEvent :=
  (⟨none, none⟩,
    match c.file_name with
    | some f => [CacheEvent.closeFile f]
    | none => [])

/-! ### ReadTask -/

/-- Mirror of the `ReadTask` constructor arguments. -/
structure ReadTask where
  file_name : String
  ptype : String
  dataset : String
  file_offset : Int
  mem_offset : Int
  count : Int
deriving DecidableEq

/-- Contents of the source files: file name → dataset name → index → value. -/
abbrev FileData := String → String → Int → Int

/-- The destination shared buffers: category → dataset → index → value. -/
abbrev Buffers := String → String → Int → Int

/-- `ReadTask.__call__`: resolve the dataset through the cache, then copy
`dataset[file_offset : file_offset+count]` into
`data[ptype][dataset][mem_offset : mem_offset+count]` (the semantics of
`h5py.Dataset.read_direct` with those slice selections). -/
def runTask (t : ReadTask) (files : FileData) (cache : DatasetCache)
    (data : Buffers) : DatasetCache × Buffers :=
  let dataset_name := t.ptype ++ "/" ++ t.dataset
  let c2 := (open_dataset cache t.file_name dataset_name).1
  (c2, fun p d i =>
    if p = t.ptype ∧ d = t.dataset ∧ t.mem_offset ≤ i ∧ i < t.mem_offset + t.count then
      files t.file_name dataset_name (t.file_offset + (i - t.mem_offset))
    else data p d i)

/-! ### Stable sort by (file, offset): the embedding of `np.lexsort((offset, file))`

`np.lexsort` returns the permutation of indices that stable-sorts by file,
then offset; stability means ties are broken by the original index, i.e. the
index list is sorted by the strict total order (file, offset, index). -/

/-- The total order on cell indices realised by `np.lexsort((offset, file))`. -/
def idxLe (cells : List Cell) (i j : Nat) : Prop :=
  (cells.getD i default).file < (cells.getD j default).file ∨
    ((cells.getD i default).file = (cells.getD j default).file ∧
      ((cells.getD i default).offset < (cells.getD j default).offset ∨
        ((cells.getD i default).offset = (cells.getD j default).offset ∧ i ≤ j)))

instance (cells : List Cell) : DecidableRel (idxLe cells) := fun i j => by
  unfold idxLe; infer_instance

instance (cells : List Cell) : IsTotal Nat (idxLe cells) where
  total i j := by unfold idxLe; omega

instance (cells : List Cell) : IsTrans Nat (idxLe cells) where
  trans i j k hij hjk := by unfold idxLe at *; omega

/-- The index permutation `idx = np.lexsort((offset, file))`. -/
def sortIndices (cells : List Cell) : List Nat :=
  List.insertionSort (idxLe cells) (List.range cells.length)

/-- `cells[idx]`: the cells listed in stable (file, offset) order. -/
def sortCellsList (cells : List Cell) : List Cell :=
  (sortIndices cells).filterMap (fun i => cells[i]?)

/-- The `order`-assignment loop of `SWIFTCellGrid.__init__`:
`for cell_order, cell_index in enumerate(idx): cellgrid[cell_index]["order"] = cell_order`,
i.e. the cell at position `p` receives the position of `p` within `idx`. -/
def assignOrder (cells : List Cell) : List Cell :=
  ((List.range cells.length).zip cells).map
    (fun p => { p.2 with order := ((sortIndices cells).indexOf p.1 : Int) })

/-! ### Read planner (`SWIFTCellGrid.prepare_read`) -/

/-- `self.cell[ptype][mask].flatten()`: numpy boolean-mask indexing of the
(row-major flattened) grid; yields a fresh copy of the selected cells in
row-major order. -/
def selectCells (grid : List Cell) (mask : List Bool) : List Cell :=
  ((grid.zip mask).filter (fun p => p.2)).map (fun p => p.1)

/-- `cells_to_read[cells_to_read["count"] > 0]`. -/
def filterPos (cells : List Cell) : List Cell :=
  cells.filter (fun c => 0 < c.count)

/-- One iteration of the in-place merge loop of `prepare_read`: compare
`cells[i]` and `cells[i+1]`; if they are in the same file, record-adjacent,
and the merged count stays within the cap, the right cell absorbs the left
one (summed count, earlier offset) and the left cell's count is zeroed.
When `i+1` is out of range the loop body cannot run (the Python loop bound
`range(nr_to_read-1)` guarantees `i+1 < len`). -/
def mergeGuard (cap : Int) (c1 c2 : Cell) : Prop :=
  c1.file = c2.file ∧ c1.offset + c1.count = c2.offset ∧ c1.count + c2.count ≤ cap

instance (cap : Int) (c1 c2 : Cell) : Decidable (mergeGuard cap c1 c2) := by
  unfold mergeGuard; infer_instance

/-- `cell2["count"] += cell1["count"]; cell2["offset"] = cell1["offset"]`. -/
def mergedRight (c1 c2 : Cell) : Cell :=
  { c2 with offset := c1.offset, count := c2.count + c1.count }

/-- `cell1["count"] = 0`. -/
def zeroed (c1 : Cell) : Cell := { c1 with count := 0 }

def mergeAt (cap : Int) (l : List Cell) (i : Nat) : List Cell :=
  if i + 1 < l.length then
    if mergeGuard cap (l.getD i default) (l.getD (i+1) default) then
      (l.set (i+1) (mergedRight (l.getD i default) (l.getD (i+1) default))).set i
        (zeroed (l.getD i default))
    else l
  else l

/-- `for cell_nr in range(nr_to_read-1): ...` — the single left-to-right
merge pass over the sorted selected cells. -/
def mergeCells (cap : Int) (l : List Cell) : List Cell :=
  (List.range (l.length - 1)).foldl (mergeAt cap) l

/-- `max_size = 20*1024**2`. -/
def max_size : Int := 20 * 1024 ^ 2

/-- Insertion into a sorted duplicate-free list (helper for `np.unique`). -/
def insertUnique (x : Int) : List Int → List Int
  | [] => [x]
  | y :: ys =>
    if x < y then x :: y :: ys else if x = y then y :: ys else y :: insertUnique x ys

/-- `np.unique`: the sorted list of distinct values. -/
def uniqueInts (l : List Int) : List Int := l.foldr insertUnique []

/-- `np.unique(cells_to_read["file"])`. -/
def uniqueFiles (cells : List Cell) : List Int :=
  uniqueInts (cells.map (fun c => c.file))

/-- One `(offset_in_file, offset_in_memory, count)` tuple of the returned
mapping. -/
structure RRead where
  file_offset : Int
  memory_offset : Int
  count : Int
deriving DecidableEq

/-- `reads[file].append(r)` (appends to the entry with the given key; in
`prepare_read` the key is always present since the keys are the unique file
numbers of the very cells being appended). -/
def appendTo (reads : List (Int × List RRead)) (file : Int) (r : RRead) :
    List (Int × List RRead) :=
  reads.map (fun p => if p.1 = file then (p.1, p.2 ++ [r]) else p)

/-- The `for cell in cells_to_read` loop assigning memory offsets by a
running counter and grouping ranges by file. -/
def buildReadsAux : List Cell → List (Int × List RRead) → Int → List (Int × List RRead)
  | [], reads, _ => reads
  | c :: cs, reads, m =>
      buildReadsAux cs (appendTo reads c.file ⟨c.offset, m, c.count⟩) (m + c.count)

/-- The select / drop-empty / sort / merge / drop-empty pipeline of
`prepare_read`. -/
def cellsToRead (grid : List Cell) (mask : List Bool) : List Cell :=
  filterPos (mergeCells max_size (sortCellsList (filterPos (selectCells grid mask))))

/-- `SWIFTCellGrid.prepare_read`: the returned mapping file number → list of
`(file_offset, memory_offset, count)` tuples. -/
def prepare_read (grid : List Cell) (mask : List Bool) : List (Int × List RRead) :=
  buildReadsAux (cellsToRead grid mask)
    ((uniqueFiles (cellsToRead grid mask)).map (fun f => (f, []))) 0

/-- `prepare_read` together with the state of the grid it leaves behind: the
method only ever writes into `cells_to_read`, the fresh copy produced by
boolean-mask indexing, and never assigns into `self.cell`, so the grid
component of the final state is the input grid itself. -/
def prepareReadSteps (grid : List Cell) (mask : List Bool) :
    List (Int × List RRead) × List Cell :=
  (prepare_read grid mask, grid)

/-- Total particle count of a list of cells. -/
def countSum (cells : List Cell) : Int := (cells.map (fun c => c.count)).sum

/-- The number of selected particles for one category and mask. -/
def totalSelected (grid : List Cell) (mask : List Bool) : Int :=
  countSum (filterPos (selectCells grid mask))

/-- The flat list of `(file, range)` pairs in assignment order: range `i`
receives memory offset `m` plus the counts of the earlier cells. -/
def flatRanges : List Cell → Int → List (Int × RRead)
  | [], _ => []
  | c :: cs, m => (c.file, ⟨c.offset, m, c.count⟩) :: flatRanges cs (m + c.count)

/-! ### Grouping into the per-file dict -/

/-- Association-list lookup (Python dict indexing; `none` = `KeyError`). -/
def alookup {α β : Type} [DecidableEq α] (k : α) : List (α × β) → Option β
  | [] => none
  | p :: ps => if p.1 = k then some p.2 else alookup k ps

/-! ### Concrete example cells -/

/-- Three adjacent same-file cells of counts (5, 5, 5) at offsets 0, 5, 10. -/
def chain3 : List Cell :=
  [⟨(0, 0, 0), 5, 0, 0, 0⟩, ⟨(0, 0, 0), 5, 5, 0, 1⟩, ⟨(0, 0, 0), 5, 10, 0, 2⟩]

/-- Example cells for the C6 witness: three cells whose (file, offset) sort
permutes them nontrivially. -/
def cells6 : List Cell :=
  [⟨(0, 0, 0), 1, 0, 1, 0⟩, ⟨(0, 0, 0), 2, 5, 0, 0⟩, ⟨(0, 0, 0), 3, 2, 0, 0⟩]

/-! ### Orchestrator (`read_masked_cells_to_shared_memory`) -/

/-- `filename % {"file_nr": n}`. -/
def fmtName (base : String) (n : Int) : String := base ++ toString n

/-- `reads_for_type[ptype] = self.prepare_read(ptype, mask)` for each
requested category, in caller order; `cellOf` is the per-category cell
array `self.cell`. -/
def readsForType (cellOf : List (String × List Cell))
    (pn : List (String × List String)) (mask : List Bool) :
    List (String × List (Int × List RRead)) :=
  pn.map (fun p => (p.1, prepare_read ((alookup p.1 cellOf).getD []) mask))

/-- `all_file_nrs = np.unique(concatenation of the per-category key lists)`. -/
def unionFiles (readsFor : List (String × List (Int × List RRead))) : List Int :=
  uniqueInts ((readsFor.map (fun p => p.2.map Prod.fst)).flatten)

/-- Count of one range list. -/
def sumCounts (rs : List RRead) : Int := (rs.map (fun r => r.count)).sum

/-- One `(file_nr, ptype)` step of the particle-counting loop;
`none` models the `KeyError` raised by `reads_for_type[ptype][file_nr]`
when that category has no entry for that file. -/
def nrPartsStep (readsFor : List (String × List (Int × List RRead)))
    (acc : List (String × Int)) (fp : Int × String) :
    Option (List (String × Int)) :=
  match alookup fp.2 readsFor with
  | none => none
  | some d =>
    match alookup fp.1 d with
    | none => none
    | some rs =>
      some (acc.map (fun q => if q.1 = fp.2 then (q.1, q.2 + sumCounts rs) else q))

/-- The particle-counting double loop (files outer, categories inner,
lines 307-312). -/
def nrParts (pn : List (String × List String))
    (readsFor : List (String × List (Int × List RRead))) (allFiles : List Int) :
    Option (List (String × Int)) :=
  ((allFiles.map (fun f => pn.map (fun p => (f, p.1)))).flatten).foldlM
    (nrPartsStep readsFor) (pn.map (fun p => (p.1, (0 : Int))))

/-- One `ReadTask` per range of a range list. -/
def rangeTasks (fname pt ds : String) (rs : List RRead) : List ReadTask :=
  rs.map (fun r => ⟨fname, pt, ds, r.file_offset, r.memory_offset, r.count⟩)

/-- One file's tasks: loop over categories, then requested datasets; a
dataset is read only when `dataset in self.snap_metadata` holds — and that
containment check is against the keys of the OUTER metadata dict (the
category names), exactly as written in the source. -/
def tasksForFile (metaKeys : List String)
    (readsFor : List (String × List (Int × List RRead)))
    (pn : List (String × List String)) (base : String) (f : Int)
    (acc : List ReadTask) : Option (List ReadTask) :=
  pn.foldlM (fun acc1 p =>
    p.2.foldlM (fun acc2 ds =>
      if ds ∈ metaKeys then
        match alookup p.1 readsFor with
        | none => none
        | some d =>
          match alookup f d with
          | none => none
          | some rs => some (acc2 ++ rangeTasks (fmtName base f) p.1 ds rs)
      else some acc2) acc1) acc

/-- Task-list construction (lines 314-333): the main pass over the snapshot
metadata, followed, when an extra filename is configured, by an equivalent
pass over the extra-file metadata. -/
def buildAllTasks (base : String) (extraBase : Option String)
    (snapMeta extraMeta : List (String × List String))
    (pn : List (String × List String))
    (readsFor : List (String × List (Int × List RRead)))
    (allFiles : List Int) : Option (List ReadTask) := do
  let t1 ← allFiles.foldlM
    (fun acc f => tasksForFile (snapMeta.map Prod.fst) readsFor pn base f acc) []
  match extraBase with
  | none => pure t1
  | some eb =>
    allFiles.foldlM
      (fun acc f => tasksForFile (extraMeta.map Prod.fst) readsFor pn eb f acc) t1

/-- The per-rank task partition loop (lines 336-346): rank `r` pops `q`
tasks from the left of the deque, plus one more when `r < rem`. -/
def splitLoop {α : Type} (q rem : Nat) : List Nat → List α → List (List α)
  | [], _ => []
  | r :: rs, ts =>
    ts.take (q + if r < rem then 1 else 0) ::
      splitLoop q rem rs (ts.drop (q + if r < rem then 1 else 0))

/-- `tasks_per_rank = nr_tasks // comm_size` plus one extra for the first
`nr_tasks % comm_size` ranks. -/
def partitionTasks {α : Type} (p : Nat) (ts : List α) : List (List α) :=
  splitLoop (ts.length / p) (ts.length % p) (List.range p) ts

/-- The local shared-array segment length (lines 357-360). -/
def nr_local (total p rank : Nat) : Nat :=
  total / p + if rank < total % p then 1 else 0

/-! ### C4 and C2: concrete orchestrator runs -/

/-- One cell with one particle in file 0. -/
def cellsA : List Cell := [⟨(0, 0, 0), 1, 0, 0, 0⟩]

/-- One cell with one particle in file 1. -/
def cellsB : List Cell := [⟨(0, 0, 0), 1, 0, 1, 0⟩]

/-- Two categories whose selected cells live in different files. -/
def cellOf4 : List (String × List Cell) :=
  [("PartType0", cellsA), ("PartType1", cellsB)]

def pn4 : List (String × List String) :=
  [("PartType0", ["Coordinates"]), ("PartType1", ["Coordinates"])]

def readsFor4 : List (String × List (Int × List RRead)) :=
  readsForType cellOf4 pn4 [true]

def files4 : List Int := unionFiles readsFor4

/-- Single category for the C2 run (so the per-file lookups cannot fail). -/
def cellOf2 : List (String × List Cell) := [("PartType0", cellsA)]

def pn2 : List (String × List String) := [("PartType0", ["Coordinates"])]

/-- The snapshot metadata: category PartType0 has property Coordinates. -/
def snapMeta2 : List (String × List String) := [("PartType0", ["Coordinates"])]

def readsFor2 : List (String × List (Int × List RRead)) :=
  readsForType cellOf2 pn2 [true]

def files2 : List Int := unionFiles readsFor2

/-! ### Region mask (`empty_mask`, `mask_region`) -/

/-- A 3D boolean mask over grid indices. -/
abbrev Mask3 := Int → Int → Int → Bool

/-- `SWIFTCellGrid.empty_mask`. -/
def empty_mask : Mask3 := fun _ _ _ => false

/-- `mask[ii, jj, kk] = True`. -/
def setTrue (m : Mask3) (x y z : Int) : Mask3 :=
  fun a b c => if a = x ∧ b = y ∧ c = z then true else m a b c

/-- `range(lo, hi + 1)` over integers. -/
def intRange (a b : Int) : List Int :=
  (List.range (b + 1 - a).toNat).map (fun t : Nat => a + (t : Int))

/-- `SWIFTCellGrid.mask_region`: `imin/imax = floor(pos / cell_size)`
componentwise, then the triple loop over the inclusive index ranges,
reducing each index modulo the grid dimension on its axis. -/
def mask_region (dim : Int × Int × Int) (mask : Mask3)
    (pmin pmax csize : ℚ × ℚ × ℚ) : Mask3 :=
  (intRange ⌊pmin.1 / csize.1⌋ ⌊pmax.1 / csize.1⌋).foldl (fun m1 i =>
    (intRange ⌊pmin.2.1 / csize.2.1⌋ ⌊pmax.2.1 / csize.2.1⌋).foldl (fun m2 j =>
      (intRange ⌊pmin.2.2 / csize.2.2⌋ ⌊pmax.2.2 / csize.2.2⌋).foldl (fun m3 k =>
        setTrue m3 (i % dim.1) (j % dim.2.1) (k % dim.2.2)) m2) m1) mask

/-! ### Theorems for the claims and their supporting lemmas -/

/-! ### Theorems for claims C5 and C9 -/

/-- C5, counterexample: starting from a cache holding file "a" and requesting
file "b", the event trace of `open_dataset` contains no close of "a" before
(indeed, nowhere at all) the open of "b" — the code rebinds `self.infile`
without calling `close()`. The claim as stated is therefore false. -/
theorem C5_close_before_open_fails :
    ¬ ∃ i j : Nat, i < j ∧
      (open_dataset ⟨some "a", some "d"⟩ "b" "d").2.get? i =
        some (CacheEvent.closeFile "a") ∧
      (open_dataset ⟨some "a", some "d"⟩ "b" "d").2.get? j =
        some (CacheEvent.openFile "b") := by
  rintro ⟨i, j, -, hc, -⟩
  exact (by decide :
    CacheEvent.closeFile "a" ∉ (open_dataset ⟨some "a", some "d"⟩ "b" "d").2)
    (List.get?_mem hc)

/-- C5, amended: a request naming a different file opens the new file and
replaces the cached handle without emitting any close (the old handle is only
released by `close()`/garbage collection), resetting the cached dataset so the
dataset is re-resolved; a request naming a different dataset within the same
file re-resolves only the dataset handle, without opening any file. -/
theorem C5_cache_transitions (c : DatasetCache) (file dset : String) :
    (some file ≠ c.file_name →
      (open_dataset c file dset).2 =
        [CacheEvent.openFile file, CacheEvent.resolveDataset file dset] ∧
      (open_dataset c file dset).1 = ⟨some file, some dset⟩ ∧
      ∀ f, CacheEvent.closeFile f ∉ (open_dataset c file dset).2) ∧
    (some file = c.file_name → some dset ≠ c.dataset_name →
      (open_dataset c file dset).2 = [CacheEvent.resolveDataset file dset] ∧
      (open_dataset c file dset).1 = ⟨c.file_name, some dset⟩ ∧
      ∀ f, CacheEvent.openFile f ∉ (open_dataset c file dset).2) := by
  constructor
  · intro hf
    rw [open_dataset]
    simp only [if_pos hf]
    simp
  · intro hf hd
    obtain ⟨cf, cd⟩ := c
    simp only at hf hd
    subst hf
    simp [open_dataset, hd]

/-- C5, witness for the amended theorem at a concrete input. -/
theorem C5_cache_transitions_witness :
    (open_dataset ⟨some "a", some "d"⟩ "b" "d").2 =
      [CacheEvent.openFile "b", CacheEvent.resolveDataset "b" "d"] ∧
    (open_dataset ⟨some "a", some "d"⟩ "b" "d").1 = ⟨some "b", some "d"⟩ ∧
    ∀ f, CacheEvent.closeFile f ∉ (open_dataset ⟨some "a", some "d"⟩ "b" "d").2 :=
  (C5_cache_transitions ⟨some "a", some "d"⟩ "b" "d").1 (by decide)

/-- C9: a `ReadTask` is a pure copy: executing it twice in succession leaves
the destination buffers exactly as executing it once, and it writes only the
slice `[mem_offset, mem_offset + count)` of its own `(category, dataset)`
buffer — every other location keeps its previous value. -/
theorem C9_task_idempotent_and_frame (t : ReadTask) (files : FileData)
    (cache : DatasetCache) (data : Buffers) :
    (runTask t files (runTask t files cache data).1 (runTask t files cache data).2).2 =
      (runTask t files cache data).2 ∧
    ∀ p d i,
      ¬(p = t.ptype ∧ d = t.dataset ∧ t.mem_offset ≤ i ∧ i < t.mem_offset + t.count) →
      (runTask t files cache data).2 p d i = data p d i := by
  constructor
  · funext p d i
    by_cases h : p = t.ptype ∧ d = t.dataset ∧ t.mem_offset ≤ i ∧ i < t.mem_offset + t.count
    · simp [runTask, h]
    · simp [runTask, h]
  · intro p d i h
    simp [runTask, h]

/-- C9, witness: concrete double execution agrees with single execution at a
point inside the task's slice, and a location outside the task's slice keeps
its old value. -/
theorem C9_task_idempotent_and_frame_witness :
    (runTask ⟨"f", "p", "d", 0, 0, 2⟩ (fun _ _ _ => 7) initCache (fun _ _ _ => 0)).2
      "x" "d" 0 = (fun _ _ _ => (0 : Int)) "x" "d" 0 :=
  (C9_task_idempotent_and_frame ⟨"f", "p", "d", 0, 0, 2⟩ (fun _ _ _ => 7)
    initCache (fun _ _ _ => 0)).2 "x" "d" 0 (by decide)

theorem sortIndices_perm (cells : List Cell) :
    List.Perm (sortIndices cells) (List.range cells.length) :=
  List.perm_insertionSort _ _

theorem sortIndices_nodup (cells : List Cell) : (sortIndices cells).Nodup :=
  ((sortIndices_perm cells).nodup_iff).mpr (List.nodup_range _)

theorem sortIndices_sorted (cells : List Cell) :
    (sortIndices cells).Sorted (idxLe cells) :=
  List.sorted_insertionSort _ _

theorem sortIndices_length (cells : List Cell) :
    (sortIndices cells).length = cells.length := by
  rw [(sortIndices_perm cells).length_eq, List.length_range]

theorem mem_sortIndices {cells : List Cell} {i : Nat} :
    i ∈ sortIndices cells ↔ i < cells.length := by
  rw [(sortIndices_perm cells).mem_iff, List.mem_range]

theorem filterMap_getElem?_range (l : List Cell) :
    (List.range l.length).filterMap (fun i => l[i]?) = l := by
  induction l with
  | nil => rfl
  | cons a t ih =>
    have hcomp : ((fun i => (a :: t)[i]?) ∘ Nat.succ) = fun i => t[i]? := by
      funext i; simp
    rw [List.length_cons, List.range_succ_eq_map, List.filterMap_cons,
      List.filterMap_map, hcomp, ih]
    simp

theorem sortCellsList_perm (cells : List Cell) :
    List.Perm (sortCellsList cells) cells := by
  unfold sortCellsList
  have h1 : List.Perm ((sortIndices cells).filterMap (fun i => cells[i]?))
      ((List.range cells.length).filterMap (fun i => cells[i]?)) :=
    (sortIndices_perm cells).filterMap _
  rw [filterMap_getElem?_range cells] at h1
  exact h1

theorem sortCellsList_sorted (cells : List Cell) :
    (sortCellsList cells).Pairwise cellLe := by
  unfold sortCellsList
  rw [List.pairwise_filterMap]
  refine (sortIndices_sorted cells).imp ?_
  intro i j hij c hc d hd
  have hc' : cells.getD i default = c := by
    rw [List.getD_eq_getElem?_getD, hc]; rfl
  have hd' : cells.getD j default = d := by
    rw [List.getD_eq_getElem?_getD, hd]; rfl
  unfold idxLe at hij
  rw [hc', hd'] at hij
  unfold cellLe
  omega

theorem assignOrder_length (cells : List Cell) :
    (assignOrder cells).length = cells.length := by
  simp [assignOrder]

theorem assignOrder_getElem (cells : List Cell) (p : Nat) (hp : p < cells.length) :
    (assignOrder cells).getD p default =
      { cells[p] with order := ((sortIndices cells).indexOf p : Int) } := by
  have hal : p < (assignOrder cells).length := by rwa [assignOrder_length]
  rw [List.getD_eq_getElem _ default hal]
  unfold assignOrder
  rw [List.getElem_map, List.getElem_zip, List.getElem_range]

theorem assignOrder_map_order (cells : List Cell) :
    (assignOrder cells).map (fun c => c.order) =
      (List.range cells.length).map
        (fun p => ((sortIndices cells).indexOf p : Int)) := by
  unfold assignOrder
  rw [List.map_map]
  have h2 : ((List.range cells.length).zip cells).map
      ((fun c => c.order) ∘ fun p => { p.2 with order := ((sortIndices cells).indexOf p.1 : Int) }) =
      (((List.range cells.length).zip cells).map Prod.fst).map
        (fun p => ((sortIndices cells).indexOf p : Int)) := by
    rw [List.map_map]; rfl
  rw [h2, List.map_fst_zip]
  simp [List.length_range]

theorem map_indexOf_sortIndices (cells : List Cell) :
    (sortIndices cells).map (fun p => (sortIndices cells).indexOf p) =
      List.range cells.length := by
  apply List.ext_getElem
  · simp [sortIndices_length]
  · intro k h1 h2
    rw [List.getElem_map, List.getElem_range]
    exact List.indexOf_getElem (sortIndices_nodup cells) k
      (by simpa using h1)

theorem indexOf_range_perm (cells : List Cell) :
    List.Perm ((List.range cells.length).map (fun p => (sortIndices cells).indexOf p))
      (List.range cells.length) := by
  have h1 : List.Perm
      ((List.range cells.length).map (fun p => (sortIndices cells).indexOf p))
      ((sortIndices cells).map (fun p => (sortIndices cells).indexOf p)) :=
    ((sortIndices_perm cells).symm).map _
  rw [map_indexOf_sortIndices cells] at h1
  exact h1

/-! ### Lemmas about the merge pass -/

theorem countSum_cons (c : Cell) (t : List Cell) :
    countSum (c :: t) = c.count + countSum t := by
  simp [countSum]

theorem countSum_set (l : List Cell) (i : Nat) (c : Cell) (h : i < l.length) :
    countSum (l.set i c) = countSum l - (l[i]).count + c.count := by
  induction l generalizing i with
  | nil => simp at h
  | cons a t ih =>
    cases i with
    | zero => simp [countSum_cons]; ring
    | succ n =>
      rw [List.set_cons_succ, countSum_cons, countSum_cons,
        ih n (by simpa using h)]
      simp
      ring

theorem getD_mem {l : List Cell} {i : Nat} (h : i < l.length) :
    l.getD i default ∈ l := by
  rw [List.getD_eq_getElem l default h]
  exact List.getElem_mem h

theorem mem_of_mem_mergeAt {cap : Int} {l : List Cell} {i : Nat} {x : Cell}
    (hx : x ∈ mergeAt cap l i) :
    x ∈ l ∨
      (i + 1 < l.length ∧
        mergeGuard cap (l.getD i default) (l.getD (i+1) default) ∧
        (x = zeroed (l.getD i default) ∨
          x = mergedRight (l.getD i default) (l.getD (i+1) default))) := by
  unfold mergeAt at hx
  by_cases h : i + 1 < l.length
  · rw [if_pos h] at hx
    by_cases hg : mergeGuard cap (l.getD i default) (l.getD (i+1) default)
    · rw [if_pos hg] at hx
      rcases List.mem_or_eq_of_mem_set hx with hx1 | hx1
      · rcases List.mem_or_eq_of_mem_set hx1 with hx2 | hx2
        · exact Or.inl hx2
        · exact Or.inr ⟨h, hg, Or.inr hx2⟩
      · exact Or.inr ⟨h, hg, Or.inl hx1⟩
    · rw [if_neg hg] at hx
      exact Or.inl hx
  · rw [if_neg h] at hx
    exact Or.inl hx

theorem countSum_mergeAt (cap : Int) (l : List Cell) (i : Nat) :
    countSum (mergeAt cap l i) = countSum l := by
  unfold mergeAt
  by_cases h : i + 1 < l.length
  · rw [if_pos h]
    by_cases hg : mergeGuard cap (l.getD i default) (l.getD (i+1) default)
    · rw [if_pos hg]
      have h0 : i < l.length := Nat.lt_of_succ_lt h
      have hlen : i < ((l.set (i+1)
          (mergedRight (l.getD i default) (l.getD (i+1) default)))).length := by
        rw [List.length_set]; exact h0
      rw [countSum_set _ _ _ hlen, countSum_set _ _ _ h,
        List.getElem_set_ne (by omega)]
      simp only [List.getD_eq_getElem l default h0, List.getD_eq_getElem l default h,
        mergedRight, zeroed]
      omega
    · rw [if_neg hg]
  · rw [if_neg h]

theorem mergeAt_nonneg {cap : Int} {l : List Cell} {i : Nat}
    (h : ∀ x ∈ l, 0 ≤ x.count) : ∀ x ∈ mergeAt cap l i, 0 ≤ x.count := by
  intro x hx
  rcases mem_of_mem_mergeAt hx with hx1 | ⟨hlt, _, hx2 | hx2⟩
  · exact h x hx1
  · rw [hx2]
    exact le_refl 0
  · rw [hx2]
    have h1 := h _ (getD_mem (Nat.lt_of_succ_lt hlt))
    have h2 := h _ (getD_mem hlt)
    simp only [mergedRight]
    exact add_nonneg h2 h1

theorem mergeAt_bound {cap : Int} {l : List Cell} {i : Nat} {S : List Cell}
    (h : ∀ x ∈ l, x.count ≤ cap ∨ x.count = 0 ∨ x ∈ S) :
    ∀ x ∈ mergeAt cap l i, x.count ≤ cap ∨ x.count = 0 ∨ x ∈ S := by
  intro x hx
  rcases mem_of_mem_mergeAt hx with hx1 | ⟨hlt, hg, hx2 | hx2⟩
  · exact h x hx1
  · rw [hx2]
    exact Or.inr (Or.inl rfl)
  · rw [hx2]
    refine Or.inl ?_
    have h3 := hg.2.2
    simp only [mergedRight]
    omega

theorem getElem_set2 {l : List Cell} {m z : Cell} {i a : Nat}
    (ha : a < ((l.set (i+1) m).set i z).length) (hLa : a < l.length) :
    ((l.set (i+1) m).set i z)[a] =
      if i = a then z else if i + 1 = a then m else l[a] := by
  simp only [List.getElem_set]

theorem mergeAt_pairwise {cap : Int} {l : List Cell} {i : Nat}
    (h : l.Pairwise cellLe) : (mergeAt cap l i).Pairwise cellLe := by
  unfold mergeAt
  by_cases hlen : i + 1 < l.length
  · rw [if_pos hlen]
    by_cases hg : mergeGuard cap (l.getD i default) (l.getD (i+1) default)
    · rw [if_pos hg]
      have h0 : i < l.length := Nat.lt_of_succ_lt hlen
      rw [List.getD_eq_getElem l default h0, List.getD_eq_getElem l default hlen] at hg
      obtain ⟨hgf, hgo, hgc⟩ := hg
      rw [List.pairwise_iff_getElem] at h ⊢
      intro a b ha hb hab
      have hLa : a < l.length := by simpa using ha
      have hLb : b < l.length := by simpa using hb
      rw [getElem_set2 ha hLa, getElem_set2 hb hLb,
        List.getD_eq_getElem l default h0, List.getD_eq_getElem l default hlen]
      have hii1 : cellLe (l[i]) (l[i+1]) := h i (i+1) h0 hlen (by omega)
      by_cases hai : i = a
      · subst hai
        rw [if_pos rfl]
        by_cases hbi1 : i + 1 = b
        · subst hbi1
          rw [if_neg (by omega), if_pos rfl]
          unfold cellLe zeroed mergedRight at *
          simp only
          omega
        · rw [if_neg (by omega), if_neg hbi1]
          have hib : cellLe (l[i]) (l[b]) := h i b h0 hLb hab
          unfold cellLe zeroed at *
          simp only
          omega
      · rw [if_neg hai]
        by_cases hai1 : i + 1 = a
        · subst hai1
          rw [if_pos rfl, if_neg (by omega), if_neg (by omega)]
          have hib : cellLe (l[i+1]) (l[b]) := h (i+1) b hlen hLb hab
          unfold cellLe mergedRight at *
          simp only
          omega
        · rw [if_neg hai1]
          by_cases hbi : i = b
          · subst hbi
            rw [if_pos rfl]
            have hai' : cellLe (l[a]) (l[i]) := h a i hLa h0 hab
            unfold cellLe zeroed at *
            simp only
            omega
          · rw [if_neg hbi]
            by_cases hbi1 : i + 1 = b
            · subst hbi1
              rw [if_pos rfl]
              have hai' : cellLe (l[a]) (l[i]) := h a i hLa h0 (by omega)
              unfold cellLe mergedRight at *
              simp only
              omega
            · rw [if_neg hbi1]
              exact h a b hLa hLb hab
    · rw [if_neg hg]
      exact h
  · rw [if_neg hlen]
    exact h

theorem foldl_mergeAt_inv {cap : Int} (P : List Cell → Prop)
    (h : ∀ l i, P l → P (mergeAt cap l i)) (is : List Nat) :
    ∀ l, P l → P (is.foldl (mergeAt cap) l) := by
  induction is with
  | nil => intro l hl; exact hl
  | cons i is ih =>
    intro l hl
    exact ih _ (h l i hl)

theorem mergeCells_nonneg {cap : Int} {l : List Cell}
    (h : ∀ x ∈ l, 0 ≤ x.count) : ∀ x ∈ mergeCells cap l, 0 ≤ x.count :=
  foldl_mergeAt_inv (fun t => ∀ x ∈ t, 0 ≤ x.count)
    (fun _ _ ht => mergeAt_nonneg ht) _ l h

theorem mergeCells_countSum (cap : Int) (l : List Cell) :
    countSum (mergeCells cap l) = countSum l :=
  foldl_mergeAt_inv (fun t => countSum t = countSum l)
    (fun _ _ ht => by simp only []; rw [countSum_mergeAt]; exact ht) _ l rfl

theorem mergeCells_bound {cap : Int} {l : List Cell} :
    ∀ x ∈ mergeCells cap l, x.count ≤ cap ∨ x.count = 0 ∨ x ∈ l :=
  foldl_mergeAt_inv (fun t => ∀ x ∈ t, x.count ≤ cap ∨ x.count = 0 ∨ x ∈ l)
    (fun _ _ ht => mergeAt_bound ht) _ l (fun _ hx => Or.inr (Or.inr hx))

theorem mergeCells_pairwise {cap : Int} {l : List Cell}
    (h : l.Pairwise cellLe) : (mergeCells cap l).Pairwise cellLe :=
  foldl_mergeAt_inv (fun t => t.Pairwise cellLe)
    (fun _ _ ht => mergeAt_pairwise ht) _ l h

/-! ### Lemmas about the filters and the pipeline -/

theorem mem_filterPos {l : List Cell} {x : Cell} :
    x ∈ filterPos l ↔ x ∈ l ∧ 0 < x.count := by
  simp [filterPos]

theorem countSum_filterPos {l : List Cell} (h : ∀ x ∈ l, 0 ≤ x.count) :
    countSum (filterPos l) = countSum l := by
  induction l with
  | nil => rfl
  | cons a t ih =>
    have ha := h a (by simp)
    have ht : ∀ x ∈ t, 0 ≤ x.count := fun x hx => h x (by simp [hx])
    by_cases hpos : 0 < a.count
    · rw [filterPos, List.filter_cons, if_pos (by simpa using hpos)]
      rw [countSum_cons, countSum_cons, ← filterPos, ih ht]
    · rw [filterPos, List.filter_cons, if_neg (by simpa using hpos)]
      rw [countSum_cons, ← filterPos, ih ht]
      have : a.count = 0 := by omega
      rw [this]
      ring

theorem countSum_nonneg {l : List Cell} (h : ∀ x ∈ l, 0 ≤ x.count) :
    0 ≤ countSum l := by
  induction l with
  | nil => simp [countSum]
  | cons a t ih =>
    rw [countSum_cons]
    have ha := h a (by simp)
    have ht := ih (fun x hx => h x (by simp [hx]))
    omega

theorem countSum_perm {l1 l2 : List Cell} (h : List.Perm l1 l2) :
    countSum l1 = countSum l2 := by
  unfold countSum
  exact (h.map (fun c => c.count)).sum_eq

theorem cellsToRead_pos (g : List Cell) (m : List Bool) :
    ∀ x ∈ cellsToRead g m, 0 < x.count := fun _ hx => (mem_filterPos.mp hx).2

theorem cellsToRead_sorted (g : List Cell) (m : List Bool) :
    (cellsToRead g m).Pairwise cellLe := by
  unfold cellsToRead filterPos
  exact (mergeCells_pairwise (sortCellsList_sorted _)).filter _

theorem cellsToRead_countSum (g : List Cell) (m : List Bool) :
    countSum (cellsToRead g m) = totalSelected g m := by
  unfold cellsToRead totalSelected
  have hpos : ∀ x ∈ sortCellsList (filterPos (selectCells g m)), 0 ≤ x.count := by
    intro x hx
    have hx2 := (sortCellsList_perm _).mem_iff.mp hx
    exact le_of_lt (mem_filterPos.mp hx2).2
  rw [countSum_filterPos (mergeCells_nonneg hpos), mergeCells_countSum,
    countSum_perm (sortCellsList_perm _)]

/-! ### `np.unique` lemmas -/

theorem mem_insertUnique {x a : Int} (l : List Int) :
    a ∈ insertUnique x l ↔ a = x ∨ a ∈ l := by
  induction l with
  | nil => simp [insertUnique]
  | cons y ys ih =>
    by_cases h1 : x < y
    · simp [insertUnique, h1]
    · by_cases h2 : x = y
      · subst h2
        have he : insertUnique x (x :: ys) = x :: ys := by
          simp [insertUnique]
        rw [he, List.mem_cons]
        tauto
      · have he : insertUnique x (y :: ys) = y :: insertUnique x ys := by
          simp only [insertUnique]
          rw [if_neg h1, if_neg h2]
        rw [he, List.mem_cons, List.mem_cons, ih]
        tauto

theorem insertUnique_sorted {x : Int} {l : List Int}
    (h : l.Pairwise (fun a b => a < b)) :
    (insertUnique x l).Pairwise (fun a b => a < b) := by
  induction l with
  | nil => simp [insertUnique]
  | cons y ys ih =>
    rw [List.pairwise_cons] at h
    obtain ⟨hy, hys⟩ := h
    by_cases h1 : x < y
    · simp only [insertUnique, if_pos h1]
      refine List.pairwise_cons.mpr ⟨?_, List.pairwise_cons.mpr ⟨hy, hys⟩⟩
      intro b hb
      rcases List.mem_cons.mp hb with rfl | hb2
      · exact h1
      · exact lt_trans h1 (hy b hb2)
    · by_cases h2 : x = y
      · simp only [insertUnique, if_neg h1, if_pos h2]
        exact List.pairwise_cons.mpr ⟨hy, hys⟩
      · simp only [insertUnique, if_neg h1, if_neg h2]
        refine List.pairwise_cons.mpr ⟨?_, ih hys⟩
        intro b hb
        rcases (mem_insertUnique ys).mp hb with rfl | hb2
        · omega
        · exact hy b hb2

theorem uniqueInts_sorted (l : List Int) :
    (uniqueInts l).Pairwise (fun a b => a < b) := by
  induction l with
  | nil => simp [uniqueInts]
  | cons x xs ih => exact insertUnique_sorted ih

theorem mem_uniqueInts {a : Int} (l : List Int) : a ∈ uniqueInts l ↔ a ∈ l := by
  induction l with
  | nil => simp [uniqueInts]
  | cons x xs ih =>
    show a ∈ insertUnique x (uniqueInts xs) ↔ _
    rw [mem_insertUnique]
    simp [ih]

/-! ### flatRanges lemmas: the memory-offset layout -/

theorem flatRanges_lb {cells : List Cell} (h : ∀ c ∈ cells, 0 ≤ c.count) :
    ∀ m0, ∀ p ∈ flatRanges cells m0, m0 ≤ p.2.memory_offset := by
  induction cells with
  | nil =>
    intro m0 p hp
    simp [flatRanges] at hp
  | cons c cs ih =>
    intro m0 p hp
    simp only [flatRanges, List.mem_cons] at hp
    rcases hp with rfl | hp2
    · simp
    · have hc := h c (by simp)
      have h2 := ih (fun d hd => h d (by simp [hd])) (m0 + c.count) p hp2
      omega

theorem flatRanges_cover {cells : List Cell} (h : ∀ c ∈ cells, 0 ≤ c.count) :
    ∀ m0 k, (m0 ≤ k ∧ k < m0 + countSum cells) ↔
      ∃ p ∈ flatRanges cells m0,
        p.2.memory_offset ≤ k ∧ k < p.2.memory_offset + p.2.count := by
  induction cells with
  | nil =>
    intro m0 k
    constructor
    · rintro ⟨h1, h2⟩
      simp [countSum] at h2
      omega
    · rintro ⟨p, hp, -⟩
      simp [flatRanges] at hp
  | cons c cs ih =>
    intro m0 k
    have hc := h c (by simp)
    have hcs : ∀ d ∈ cs, 0 ≤ d.count := fun d hd => h d (by simp [hd])
    have ih2 := ih hcs (m0 + c.count) k
    have hnn := countSum_nonneg hcs
    rw [countSum_cons]
    simp only [flatRanges, List.mem_cons]
    constructor
    · rintro ⟨h1, h2⟩
      by_cases hk : k < m0 + c.count
      · refine ⟨(c.file, ⟨c.offset, m0, c.count⟩), Or.inl rfl, ?_⟩
        dsimp only
        omega
      · obtain ⟨p, hp, hpk⟩ := ih2.mp ⟨by omega, by omega⟩
        exact ⟨p, Or.inr hp, hpk⟩
    · rintro ⟨p, hp | hp, hpk⟩
      · subst hp
        dsimp only at hpk
        omega
      · have := ih2.mpr ⟨p, hp, hpk⟩
        omega

theorem flatRanges_disjoint {cells : List Cell} (h : ∀ c ∈ cells, 0 ≤ c.count) :
    ∀ m0, (flatRanges cells m0).Pairwise
      (fun p q => p.2.memory_offset + p.2.count ≤ q.2.memory_offset) := by
  induction cells with
  | nil => intro m0; simp [flatRanges]
  | cons c cs ih =>
    intro m0
    have hcs : ∀ d ∈ cs, 0 ≤ d.count := fun d hd => h d (by simp [hd])
    simp only [flatRanges]
    refine List.pairwise_cons.mpr ⟨?_, ih hcs (m0 + c.count)⟩
    intro q hq
    have hlb := flatRanges_lb hcs (m0 + c.count) q hq
    dsimp only
    omega

theorem mem_flatRanges_exists {cells : List Cell} {m0 : Int} {p : Int × RRead}
    (hp : p ∈ flatRanges cells m0) :
    ∃ d ∈ cells, p.1 = d.file ∧ p.2.file_offset = d.offset ∧ p.2.count = d.count := by
  induction cells generalizing m0 with
  | nil => simp [flatRanges] at hp
  | cons c cs ih =>
    simp only [flatRanges, List.mem_cons] at hp
    rcases hp with rfl | hp2
    · exact ⟨c, by simp, rfl, rfl, rfl⟩
    · obtain ⟨d, hd, he⟩ := ih hp2
      exact ⟨d, by simp [hd], he⟩

theorem flatRanges_ordered {cells : List Cell}
    (hs : cells.Pairwise cellLe) (hpos : ∀ c ∈ cells, 0 < c.count) :
    ∀ m0, (flatRanges cells m0).Pairwise
      (fun p q => (p.1 < q.1 ∨ (p.1 = q.1 ∧ p.2.file_offset ≤ q.2.file_offset)) ∧
        p.2.memory_offset < q.2.memory_offset) := by
  induction cells with
  | nil => intro m0; simp [flatRanges]
  | cons c cs ih =>
    intro m0
    rw [List.pairwise_cons] at hs
    obtain ⟨hc, hcs⟩ := hs
    have hpcs : ∀ d ∈ cs, 0 < d.count := fun d hd => hpos d (by simp [hd])
    simp only [flatRanges]
    refine List.pairwise_cons.mpr ⟨?_, ih hcs hpcs (m0 + c.count)⟩
    intro q hq
    obtain ⟨d, hd, he1, he2, he3⟩ := mem_flatRanges_exists hq
    have hlb := flatRanges_lb (fun e he => le_of_lt (hpcs e he)) (m0 + c.count) q hq
    have hcd := hc d hd
    have hcc := hpos c (by simp)
    unfold cellLe at hcd
    dsimp only
    constructor
    · omega
    · omega

theorem alookup_appendTo (reads : List (Int × List RRead)) (g f : Int) (r : RRead) :
    alookup f (appendTo reads g r) =
      (alookup f reads).map (fun v => if g = f then v ++ [r] else v) := by
  induction reads with
  | nil => rfl
  | cons p ps ih =>
    show alookup f ((if p.1 = g then (p.1, p.2 ++ [r]) else p) :: appendTo ps g r) = _
    by_cases h2 : p.1 = g
    · rw [if_pos h2]
      by_cases h1 : p.1 = f
      · show (if p.1 = f then some (p.2 ++ [r]) else _) = _
        rw [if_pos h1]
        show _ = (if p.1 = f then some p.2 else alookup f ps).map _
        rw [if_pos h1]
        show some (p.2 ++ [r]) = some (if g = f then p.2 ++ [r] else p.2)
        rw [if_pos (h2.symm.trans h1)]
      · show (if p.1 = f then some (p.2 ++ [r]) else alookup f (appendTo ps g r)) = _
        rw [if_neg h1, ih]
        show _ = (if p.1 = f then some p.2 else alookup f ps).map _
        rw [if_neg h1]
    · rw [if_neg h2]
      by_cases h1 : p.1 = f
      · show (if p.1 = f then some p.2 else _) = _
        rw [if_pos h1]
        show _ = (if p.1 = f then some p.2 else alookup f ps).map _
        rw [if_pos h1]
        show _ = some (if g = f then p.2 ++ [r] else p.2)
        rw [if_neg (fun hgf => h2 (h1.trans hgf.symm))]
      · show (if p.1 = f then some p.2 else alookup f (appendTo ps g r)) = _
        rw [if_neg h1, ih]
        show _ = (if p.1 = f then some p.2 else alookup f ps).map _
        rw [if_neg h1]

theorem alookup_buildReadsAux (cells : List Cell) :
    ∀ (reads : List (Int × List RRead)) (m : Int) (f : Int),
      alookup f (buildReadsAux cells reads m) =
        (alookup f reads).map
          (fun v => v ++ ((flatRanges cells m).filter (fun p => p.1 = f)).map
            (fun p => p.2)) := by
  induction cells with
  | nil =>
    intro reads m f
    show alookup f reads = _
    cases alookup f reads with
    | none => rfl
    | some v => simp [flatRanges]
  | cons c cs ih =>
    intro reads m f
    show alookup f (buildReadsAux cs (appendTo reads c.file ⟨c.offset, m, c.count⟩)
      (m + c.count)) = _
    rw [ih, alookup_appendTo]
    cases halk : alookup f reads with
    | none => rfl
    | some v =>
      simp only [Option.map_some', Option.map_map, Function.comp]
      by_cases hcf : c.file = f
      · simp only [flatRanges, List.filter_cons, if_pos hcf,
          decide_eq_true_eq, hcf, decide_True]
        simp [List.append_assoc]
      · simp only [flatRanges, List.filter_cons]
        rw [if_neg hcf]
        have hd : (decide ((c.file, (⟨c.offset, m, c.count⟩ : RRead)).1 = f)) = false := by
          simpa using hcf
        simp [hd]

theorem alookup_initReads (fs : List Int) (f : Int) :
    alookup f (fs.map (fun g => (g, ([] : List RRead)))) =
      if f ∈ fs then some [] else none := by
  induction fs with
  | nil => simp [alookup]
  | cons g gs ih =>
    show (if g = f then some [] else alookup f (gs.map _)) = _
    by_cases h : g = f
    · subst h
      simp
    · rw [if_neg h, ih]
      by_cases h2 : f ∈ gs
      · rw [if_pos h2, if_pos (by simp [h2])]
      · rw [if_neg h2, if_neg (by
          simp only [List.mem_cons]
          rintro (rfl | hmem)
          · exact h rfl
          · exact h2 hmem)]

theorem map_fst_appendTo (reads : List (Int × List RRead)) (g : Int) (r : RRead) :
    (appendTo reads g r).map Prod.fst = reads.map Prod.fst := by
  induction reads with
  | nil => rfl
  | cons p ps ih =>
    show ((if p.1 = g then (p.1, p.2 ++ [r]) else p).1) :: (appendTo ps g r).map Prod.fst =
      p.1 :: ps.map Prod.fst
    rw [ih]
    by_cases h : p.1 = g
    · rw [if_pos h]
    · rw [if_neg h]

theorem map_fst_buildReadsAux (cells : List Cell) :
    ∀ (reads : List (Int × List RRead)) (m : Int),
      (buildReadsAux cells reads m).map Prod.fst = reads.map Prod.fst := by
  induction cells with
  | nil => intro reads m; rfl
  | cons c cs ih =>
    intro reads m
    show (buildReadsAux cs (appendTo reads c.file ⟨c.offset, m, c.count⟩)
      (m + c.count)).map Prod.fst = _
    rw [ih, map_fst_appendTo]

theorem prepare_read_keys (g : List Cell) (m : List Bool) :
    (prepare_read g m).map Prod.fst = uniqueFiles (cellsToRead g m) := by
  unfold prepare_read
  rw [map_fst_buildReadsAux, List.map_map]
  have he : (Prod.fst ∘ fun f : Int => (f, ([] : List RRead))) = id := rfl
  rw [he, List.map_id]

/-- C1: the merge pass never produces a merged range over the cap — every
surviving range either respects the cap or is an untouched original cell —
and it merges chains correctly: counts (5,5,5) with cap 15 give one range of
count 15 at the first cell's offset; with cap 10 they give two ranges of
counts 10 and 5. -/
theorem C1_merge_cap_and_chains :
    (∀ (cap : Int) (cells : List Cell),
      ∀ x ∈ filterPos (mergeCells cap cells), x.count ≤ cap ∨ x ∈ cells) ∧
    filterPos (mergeCells 15 chain3) = [⟨(0, 0, 0), 15, 0, 0, 2⟩] ∧
    filterPos (mergeCells 10 chain3) =
      [⟨(0, 0, 0), 10, 0, 0, 1⟩, ⟨(0, 0, 0), 5, 10, 0, 2⟩] := by
  refine ⟨?_, by decide, by decide⟩
  intro cap cells x hx
  have h1 := mergeCells_bound x (mem_filterPos.mp hx).1
  have h2 := (mem_filterPos.mp hx).2
  rcases h1 with h | h | h
  · exact Or.inl h
  · omega
  · exact Or.inr h

/-- C1, witness: the single merged range of the cap-15 chain satisfies the
cap disjunction. -/
theorem C1_merge_cap_and_chains_witness :
    (⟨(0, 0, 0), 15, 0, 0, 2⟩ : Cell).count ≤ 15 ∨
      (⟨(0, 0, 0), 15, 0, 0, 2⟩ : Cell) ∈ chain3 :=
  C1_merge_cap_and_chains.1 15 chain3 _ (by decide)

/-- C10: `prepare_read` leaves the grid unchanged — the state it leaves
behind is the input grid, every cell's fields included — even though the
merge pass really does zero counts in the working copy (third conjunct: on
the selected copy of `chain3` the merge pass changes the working list). -/
theorem C10_prepare_read_frame :
    (∀ (g : List Cell) (m : List Bool), (prepareReadSteps g m).2 = g) ∧
    (∀ (g : List Cell) (m : List Bool) (p : Nat),
      ((prepareReadSteps g m).2.getD p default).centre = (g.getD p default).centre ∧
      ((prepareReadSteps g m).2.getD p default).count = (g.getD p default).count ∧
      ((prepareReadSteps g m).2.getD p default).offset = (g.getD p default).offset ∧
      ((prepareReadSteps g m).2.getD p default).file = (g.getD p default).file ∧
      ((prepareReadSteps g m).2.getD p default).order = (g.getD p default).order) ∧
    mergeCells max_size (sortCellsList (filterPos (selectCells chain3 [true, true, true]))) ≠
      sortCellsList (filterPos (selectCells chain3 [true, true, true])) := by
  exact ⟨fun g m => rfl,
    fun g m p => ⟨rfl, rfl, rfl, rfl, rfl⟩,
    by decide⟩

/-- C6: after index construction, `order` is the inverse permutation of the
stable (file, offset) sort: the multiset of `order` values is exactly
`[0, nr_cells)`, the cell at sorted position `k` has order `k` (hence cells
listed in (file, offset) order have strictly increasing order, and that
listing is (file, offset)-sorted), all other fields are unchanged, and
`prepare_read` never changes the grid afterwards. -/
theorem C6_order_inverse_permutation (cells : List Cell) :
    List.Perm ((assignOrder cells).map (fun c => c.order))
      ((List.range cells.length).map Int.ofNat) ∧
    (∀ k, k < (sortIndices cells).length →
      ((assignOrder cells).getD ((sortIndices cells).getD k 0) default).order = k) ∧
    (∀ k1 k2, k1 < (sortIndices cells).length → k2 < (sortIndices cells).length →
      k1 < k2 →
      ((assignOrder cells).getD ((sortIndices cells).getD k1 0) default).order <
        ((assignOrder cells).getD ((sortIndices cells).getD k2 0) default).order) ∧
    (sortCellsList cells).Pairwise cellLe ∧
    (∀ p, ((assignOrder cells).getD p default).centre = (cells.getD p default).centre ∧
      ((assignOrder cells).getD p default).count = (cells.getD p default).count ∧
      ((assignOrder cells).getD p default).offset = (cells.getD p default).offset ∧
      ((assignOrder cells).getD p default).file = (cells.getD p default).file) ∧
    (∀ mask, (prepareReadSteps (assignOrder cells) mask).2 = assignOrder cells) := by
  have horder : ∀ k, k < (sortIndices cells).length →
      ((assignOrder cells).getD ((sortIndices cells).getD k 0) default).order = k := by
    intro k hk
    rw [List.getD_eq_getElem _ 0 hk]
    have hpl : (sortIndices cells)[k] < cells.length :=
      mem_sortIndices.mp (List.getElem_mem hk)
    rw [assignOrder_getElem cells _ hpl]
    show ((sortIndices cells).indexOf ((sortIndices cells)[k]) : Int) = (k : Int)
    rw [List.indexOf_getElem (sortIndices_nodup cells) k hk]
  refine ⟨?_, horder, ?_, sortCellsList_sorted cells, ?_, fun mask => rfl⟩
  · have h1 : (assignOrder cells).map (fun c => c.order) =
        ((List.range cells.length).map
          (fun p => (sortIndices cells).indexOf p)).map Int.ofNat := by
      rw [assignOrder_map_order, List.map_map]
      rfl
    rw [h1]
    exact (indexOf_range_perm cells).map Int.ofNat
  · intro k1 k2 h1 h2 h12
    rw [horder k1 h1, horder k2 h2]
    exact_mod_cast h12
  · intro p
    by_cases hp : p < cells.length
    · rw [assignOrder_getElem cells _ hp, List.getD_eq_getElem _ default hp]
      exact ⟨rfl, rfl, rfl, rfl⟩
    · have h1 : (assignOrder cells).getD p default = default := by
        apply List.getD_eq_default
        rw [assignOrder_length]
        omega
      have h2 : cells.getD p default = default := by
        apply List.getD_eq_default
        omega
      rw [h1, h2]
      exact ⟨rfl, rfl, rfl, rfl⟩

/-- C6, witness: on `cells6` the cell at sorted position 1 has order 1. -/
theorem C6_order_inverse_permutation_witness :
    ((assignOrder cells6).getD ((sortIndices cells6).getD 1 0) default).order = 1 :=
  (C6_order_inverse_permutation cells6).2.1 1 (by decide)

/-- C3: the memory offsets of the ranges returned by `prepare_read` form a
contiguous partition of `[0, total_selected_count)` — every such address is
covered (no gaps, first conjunct) by pairwise-disjoint ranges (no overlaps,
second conjunct) — assigned in (file ascending, offset ascending) order with
strictly increasing memory offsets (third conjunct); the returned mapping
places under each file number exactly that file's ranges (fourth conjunct)
and its keys are the file numbers in ascending order (fifth conjunct). -/
theorem C3_partition_invariant (g : List Cell) (m : List Bool) :
    (∀ k : Int, (0 ≤ k ∧ k < totalSelected g m) ↔
      ∃ p ∈ flatRanges (cellsToRead g m) 0,
        p.2.memory_offset ≤ k ∧ k < p.2.memory_offset + p.2.count) ∧
    (flatRanges (cellsToRead g m) 0).Pairwise
      (fun p q => p.2.memory_offset + p.2.count ≤ q.2.memory_offset) ∧
    (flatRanges (cellsToRead g m) 0).Pairwise
      (fun p q => (p.1 < q.1 ∨ (p.1 = q.1 ∧ p.2.file_offset ≤ q.2.file_offset)) ∧
        p.2.memory_offset < q.2.memory_offset) ∧
    (∀ f : Int, alookup f (prepare_read g m) =
      if f ∈ uniqueFiles (cellsToRead g m) then
        some (((flatRanges (cellsToRead g m) 0).filter
          (fun p => p.1 = f)).map (fun p => p.2))
      else none) ∧
    ((prepare_read g m).map Prod.fst).Pairwise (fun a b => a < b) := by
  have hnn : ∀ c ∈ cellsToRead g m, 0 ≤ c.count :=
    fun c hc => le_of_lt (cellsToRead_pos g m c hc)
  refine ⟨?_, flatRanges_disjoint hnn 0, ?_, ?_, ?_⟩
  · intro k
    have hcov := flatRanges_cover hnn 0 k
    rw [zero_add, cellsToRead_countSum] at hcov
    exact hcov
  · exact flatRanges_ordered (cellsToRead_sorted g m) (cellsToRead_pos g m) 0
  · intro f
    unfold prepare_read
    rw [alookup_buildReadsAux, alookup_initReads]
    by_cases hf : f ∈ uniqueFiles (cellsToRead g m)
    · rw [if_pos hf, if_pos hf]
      rfl
    · rw [if_neg hf, if_neg hf]
      rfl
  · rw [prepare_read_keys]
    exact uniqueInts_sorted _

/-! ### Partition lemmas and theorem for C7 -/

theorem splitLoop_spec {α : Type} (q rem : Nat) :
    ∀ (ranks : List Nat) (ts : List α),
      (ranks.map (fun r => q + if r < rem then 1 else 0)).sum ≤ ts.length →
      (splitLoop q rem ranks ts).map List.length =
          ranks.map (fun r => q + if r < rem then 1 else 0) ∧
      (splitLoop q rem ranks ts).flatten =
          ts.take (ranks.map (fun r => q + if r < rem then 1 else 0)).sum := by
  intro ranks
  induction ranks with
  | nil =>
    intro ts h
    exact ⟨rfl, rfl⟩
  | cons r rs ih =>
    intro ts h
    simp only [List.map_cons, List.sum_cons] at h
    have h1 : (q + if r < rem then 1 else 0) ≤ ts.length :=
      le_trans (Nat.le_add_right _ _) h
    obtain ⟨ihl, ihj⟩ := ih (ts.drop (q + if r < rem then 1 else 0))
      (by rw [List.length_drop]; omega)
    constructor
    · show (ts.take (q + if r < rem then 1 else 0)).length ::
        (splitLoop q rem rs _).map List.length = _
      rw [ihl, List.length_take, Nat.min_eq_left h1]
      rfl
    · show ts.take (q + if r < rem then 1 else 0) ++ (splitLoop q rem rs _).flatten = _
      rw [ihj, List.map_cons, List.sum_cons]
      exact (List.take_add ts _ _).symm

theorem sum_sizes (q rem p : Nat) :
    ((List.range p).map (fun r => q + if r < rem then 1 else 0)).sum =
      p * q + min p rem := by
  induction p with
  | zero => simp
  | succ n ih =>
    rw [List.range_succ, List.map_append, List.sum_append, ih, Nat.succ_mul]
    simp only [List.map_cons, List.map_nil, List.sum_cons, List.sum_nil]
    by_cases h : n < rem
    · rw [if_pos h]
      omega
    · rw [if_neg h]
      omega

/-- C7: with `p > 0` workers, the task partition gives worker `r` exactly
`n / p` tasks plus one extra when `r < n % p`, and the chunks concatenate
back to the full task list (nothing dropped, `assert len(all_tasks) == 0`);
likewise the shared-array local segments have length `total / p` plus one
for the first `total % p` workers, they tile the whole array, and for
`total = 20`, `p = 3` the sizes are `(7, 7, 6)`. -/
theorem C7_partition_balance {α : Type} (p : Nat) (ts : List α) (hp : 0 < p) :
    (partitionTasks p ts).map List.length =
      (List.range p).map (fun r => ts.length / p + if r < ts.length % p then 1 else 0) ∧
    (partitionTasks p ts).flatten = ts ∧
    (∀ total : Nat, ((List.range p).map (fun r => nr_local total p r)).sum = total) ∧
    [nr_local 20 3 0, nr_local 20 3 1, nr_local 20 3 2] = [7, 7, 6] := by
  have hmod : ts.length % p < p := Nat.mod_lt _ hp
  have hsum := sum_sizes (ts.length / p) (ts.length % p) p
  rw [Nat.min_eq_right (le_of_lt hmod)] at hsum
  have htot : p * (ts.length / p) + ts.length % p = ts.length :=
    Nat.div_add_mod ts.length p
  obtain ⟨hl, hj⟩ := splitLoop_spec (ts.length / p) (ts.length % p) (List.range p) ts
    (by rw [hsum, htot])
  refine ⟨hl, ?_, ?_, by decide⟩
  · show (splitLoop (ts.length / p) (ts.length % p) (List.range p) ts).flatten = ts
    rw [hj, hsum, htot, List.take_length]
  · intro total
    have hs := sum_sizes (total / p) (total % p) p
    rw [Nat.min_eq_right (le_of_lt (Nat.mod_lt _ hp))] at hs
    simp only [nr_local]
    rw [hs]
    exact Nat.div_add_mod total p

/-- C7, witness: partitioning 20 tasks over 3 workers loses nothing. -/
theorem C7_partition_balance_witness :
    (partitionTasks 3 (List.range 20)).flatten = List.range 20 :=
  (C7_partition_balance 3 (List.range 20) (by decide)).2.1

/-- C4: when the union of touched files contains a file for which some
category has no planned ranges, the counting loop raises `KeyError`
(modelled as `none`) instead of computing the per-category totals: with
PartType0 touching only file 0 and PartType1 only file 1, the union is
`[0, 1]`, PartType1 has no entry for file 0, and `nr_parts` aborts — even
though both categories have well-defined range-count sums (each 1). -/
theorem C4_nr_parts_keyerror :
    nrParts pn4 readsFor4 files4 = none ∧
    files4 = [0, 1] ∧
    sumCounts ((alookup 0 ((alookup "PartType0" readsFor4).getD [])).getD []) = 1 ∧
    sumCounts ((alookup 1 ((alookup "PartType1" readsFor4).getD [])).getD []) = 1 ∧
    alookup 0 ((alookup "PartType1" readsFor4).getD []) = none := by
  refine ⟨by decide, by decide, by decide, by decide, by decide⟩

/-- C2: the task-construction loop tests `dataset in self.snap_metadata`,
i.e. membership among the OUTER keys (category names) instead of the
requested category's own property dict; "Coordinates" is a property of
PartType0 in the metadata, one range is planned for file 0, yet the global
task list comes out empty instead of containing one task per range. -/
theorem C2_task_list_empty :
    buildAllTasks "snap." none snapMeta2 [] pn2 readsFor2 files2 = some [] ∧
    alookup 0 ((alookup "PartType0" readsFor2).getD []) = some [⟨0, 0, 1⟩] ∧
    "Coordinates" ∈ (alookup "PartType0" snapMeta2).getD [] ∧
    "Coordinates" ∉ snapMeta2.map Prod.fst := by
  refine ⟨by decide, by decide, by decide, by decide⟩

theorem mem_intRange {a b x : Int} : x ∈ intRange a b ↔ a ≤ x ∧ x ≤ b := by
  unfold intRange
  simp only [List.mem_map, List.mem_range]
  constructor
  · rintro ⟨t, ht, rfl⟩
    omega
  · rintro ⟨h1, h2⟩
    exact ⟨(x - a).toNat, by omega, by omega⟩

theorem maskRegion_inner (d : Int × Int × Int) (i j : Int) (ks : List Int)
    (m : Mask3) (a b c : Int) :
    ((ks.foldl (fun m3 k => setTrue m3 (i % d.1) (j % d.2.1) (k % d.2.2)) m) a b c
        = true) ↔
      (m a b c = true ∨
        ∃ k ∈ ks, a = i % d.1 ∧ b = j % d.2.1 ∧ c = k % d.2.2) := by
  induction ks generalizing m with
  | nil => simp
  | cons k ks ih =>
    rw [List.foldl_cons, ih]
    constructor
    · rintro (h | h)
      · unfold setTrue at h
        by_cases he : a = i % d.1 ∧ b = j % d.2.1 ∧ c = k % d.2.2
        · exact Or.inr ⟨k, by simp, he⟩
        · rw [if_neg he] at h
          exact Or.inl h
      · obtain ⟨k2, hk2, he⟩ := h
        exact Or.inr ⟨k2, by simp [hk2], he⟩
    · rintro (h | ⟨k2, hk2, he⟩)
      · left
        unfold setTrue
        by_cases he : a = i % d.1 ∧ b = j % d.2.1 ∧ c = k % d.2.2
        · rw [if_pos he]
        · rw [if_neg he]
          exact h
      · rcases List.mem_cons.mp hk2 with rfl | hk3
        · left
          unfold setTrue
          rw [if_pos he]
        · exact Or.inr ⟨k2, hk3, he⟩

theorem maskRegion_mid (d : Int × Int × Int) (i : Int) (js ks : List Int)
    (m : Mask3) (a b c : Int) :
    ((js.foldl (fun m2 j =>
        ks.foldl (fun m3 k => setTrue m3 (i % d.1) (j % d.2.1) (k % d.2.2)) m2) m)
          a b c = true) ↔
      (m a b c = true ∨
        ∃ j ∈ js, ∃ k ∈ ks, a = i % d.1 ∧ b = j % d.2.1 ∧ c = k % d.2.2) := by
  induction js generalizing m with
  | nil => simp
  | cons j js ih =>
    rw [List.foldl_cons, ih, maskRegion_inner]
    constructor
    · rintro ((h | ⟨k2, hk2, he⟩) | ⟨j2, hj2, k2, hk2, he⟩)
      · exact Or.inl h
      · exact Or.inr ⟨j, by simp, k2, hk2, he⟩
      · exact Or.inr ⟨j2, by simp [hj2], k2, hk2, he⟩
    · rintro (h | ⟨j2, hj2, k2, hk2, he⟩)
      · exact Or.inl (Or.inl h)
      · rcases List.mem_cons.mp hj2 with rfl | hj3
        · exact Or.inl (Or.inr ⟨k2, hk2, he⟩)
        · exact Or.inr ⟨j2, hj3, k2, hk2, he⟩

theorem maskRegion_outer (d : Int × Int × Int) (is js ks : List Int)
    (m : Mask3) (a b c : Int) :
    ((is.foldl (fun m1 i =>
        js.foldl (fun m2 j =>
          ks.foldl (fun m3 k => setTrue m3 (i % d.1) (j % d.2.1) (k % d.2.2)) m2) m1) m)
          a b c = true) ↔
      (m a b c = true ∨
        ∃ i ∈ is, ∃ j ∈ js, ∃ k ∈ ks,
          a = i % d.1 ∧ b = j % d.2.1 ∧ c = k % d.2.2) := by
  induction is generalizing m with
  | nil => simp
  | cons i is ih =>
    rw [List.foldl_cons, ih, maskRegion_mid]
    constructor
    · rintro ((h | ⟨j2, hj2, k2, hk2, he⟩) | ⟨i2, hi2, rest⟩)
      · exact Or.inl h
      · exact Or.inr ⟨i, by simp, j2, hj2, k2, hk2, he⟩
      · exact Or.inr ⟨i2, by simp [hi2], rest⟩
    · rintro (h | ⟨i2, hi2, rest⟩)
      · exact Or.inl (Or.inl h)
      · rcases List.mem_cons.mp hi2 with rfl | hi3
        · exact Or.inl (Or.inr rest)
        · exact Or.inr ⟨i2, hi3, rest⟩

/-- C8: `mask_region` selects exactly the image, modulo the per-axis grid
dimension, of the inclusive floored index box of `[min_corner, max_corner]`
(first conjunct: a grid index is set iff it was already set or arises from
the box); and when the floored box is a single triple (the region lies in
one cell, wrapped or not), starting from the empty mask exactly one grid
index is selected (second conjunct). -/
theorem C8_mask_region_coverage (dim : Int × Int × Int) (mask : Mask3)
    (pmin pmax csize : ℚ × ℚ × ℚ) :
    (∀ a b c : Int, mask_region dim mask pmin pmax csize a b c = true ↔
      (mask a b c = true ∨
        ∃ i j k : Int,
          (⌊pmin.1 / csize.1⌋ ≤ i ∧ i ≤ ⌊pmax.1 / csize.1⌋) ∧
          (⌊pmin.2.1 / csize.2.1⌋ ≤ j ∧ j ≤ ⌊pmax.2.1 / csize.2.1⌋) ∧
          (⌊pmin.2.2 / csize.2.2⌋ ≤ k ∧ k ≤ ⌊pmax.2.2 / csize.2.2⌋) ∧
          a = i % dim.1 ∧ b = j % dim.2.1 ∧ c = k % dim.2.2)) ∧
    (⌊pmin.1 / csize.1⌋ = ⌊pmax.1 / csize.1⌋ →
      ⌊pmin.2.1 / csize.2.1⌋ = ⌊pmax.2.1 / csize.2.1⌋ →
      ⌊pmin.2.2 / csize.2.2⌋ = ⌊pmax.2.2 / csize.2.2⌋ →
      ∀ a b c : Int, mask_region dim empty_mask pmin pmax csize a b c = true ↔
        (a = ⌊pmin.1 / csize.1⌋ % dim.1 ∧ b = ⌊pmin.2.1 / csize.2.1⌋ % dim.2.1 ∧
          c = ⌊pmin.2.2 / csize.2.2⌋ % dim.2.2)) := by
  have hmain : ∀ (mk : Mask3) (a b c : Int),
      mask_region dim mk pmin pmax csize a b c = true ↔
      (mk a b c = true ∨
        ∃ i j k : Int,
          (⌊pmin.1 / csize.1⌋ ≤ i ∧ i ≤ ⌊pmax.1 / csize.1⌋) ∧
          (⌊pmin.2.1 / csize.2.1⌋ ≤ j ∧ j ≤ ⌊pmax.2.1 / csize.2.1⌋) ∧
          (⌊pmin.2.2 / csize.2.2⌋ ≤ k ∧ k ≤ ⌊pmax.2.2 / csize.2.2⌋) ∧
          a = i % dim.1 ∧ b = j % dim.2.1 ∧ c = k % dim.2.2) := by
    intro mk a b c
    unfold mask_region
    rw [maskRegion_outer]
    constructor
    · rintro (h | ⟨i, hi, j, hj, k, hk, he⟩)
      · exact Or.inl h
      · exact Or.inr ⟨i, j, k, mem_intRange.mp hi, mem_intRange.mp hj,
          mem_intRange.mp hk, he⟩
    · rintro (h | ⟨i, j, k, hi, hj, hk, he⟩)
      · exact Or.inl h
      · exact Or.inr ⟨i, mem_intRange.mpr hi, j, mem_intRange.mpr hj,
          k, mem_intRange.mpr hk, he⟩
  refine ⟨hmain mask, ?_⟩
  intro h1 h2 h3 a b c
  rw [hmain empty_mask a b c]
  unfold empty_mask
  constructor
  · rintro (h | ⟨i, j, k, hi, hj, hk, ha, hb, hc⟩)
    · simp at h
    · have hieq : i = ⌊pmin.1 / csize.1⌋ := by omega
      have hjeq : j = ⌊pmin.2.1 / csize.2.1⌋ := by omega
      have hkeq : k = ⌊pmin.2.2 / csize.2.2⌋ := by omega
      subst hieq hjeq hkeq
      exact ⟨ha, hb, hc⟩
  · rintro ⟨ha, hb, hc⟩
    exact Or.inr ⟨⌊pmin.1 / csize.1⌋, ⌊pmin.2.1 / csize.2.1⌋, ⌊pmin.2.2 / csize.2.2⌋,
      ⟨le_refl _, by omega⟩, ⟨le_refl _, by omega⟩, ⟨le_refl _, by omega⟩, ha, hb, hc⟩

/-- C8, witness: the degenerate region at `(8.25, 0.5, 0.5)` of a periodic
`4 × 4 × 4` grid with unit cells lies in one (wrapped, since 8.25 is beyond
the 4-cell axis) cell, and the selection at grid index `(0, 0, 0)` is
characterised by the single-cell condition. -/
theorem C8_mask_region_coverage_witness :
    mask_region (4, 4, 4) empty_mask (33/4, 1/2, 1/2) (33/4, 1/2, 1/2) (1, 1, 1)
        0 0 0 = true ↔
      ((0 : Int) = ⌊(33/4 : ℚ) / 1⌋ % 4 ∧ (0 : Int) = ⌊(1/2 : ℚ) / 1⌋ % 4 ∧
        (0 : Int) = ⌊(1/2 : ℚ) / 1⌋ % 4) :=
  (C8_mask_region_coverage (4, 4, 4) empty_mask (33/4, 1/2, 1/2) (33/4, 1/2, 1/2)
    (1, 1, 1)).2 rfl rfl rfl 0 0 0

/-- C3, witness: the planned ranges of the fully selected `chain3` grid are
pairwise disjoint in memory. -/
theorem C3_partition_invariant_witness :
    (flatRanges (cellsToRead chain3 [true, true, true]) 0).Pairwise
      (fun p q => p.2.memory_offset + p.2.count ≤ q.2.memory_offset) :=
  (C3_partition_invariant chain3 [true, true, true]).2.1

/-- C10, witness: `prepare_read` on the fully selected `chain3` grid leaves
the grid equal to itself. -/
theorem C10_prepare_read_frame_witness :
    (prepareReadSteps chain3 [true, true, true]).2 = chain3 :=
  C10_prepare_read_frame.1 chain3 [true, true, true]
